import Mathlib

/-!
Verification of the source-position tracking engine of `biblint`
(`TextFragmentTracker.py` and `LineMapper.py`).

The engine keeps a mutable text buffer together with a piecewise-linear
offset map: an ordered list of breakpoints `(src, dst)`.  For a current
buffer offset `o` governed by the breakpoint `(src, dst)` the original
offset is `o + (dst - src)`.  The Python code manipulates the map with
`bisect.bisect_left` over `[src, dst]` pairs (lexicographic list
comparison) and in-place list surgery; the definitions below are a direct
functional translation of that code.  Text is modelled as `List Char`;
Python slice bounds in the operations are non-negative, and `List.take` /
`List.drop` have exactly Python's clamping slice semantics for
non-negative indices.
-/

namespace Biblint

/-- Lexicographic comparison of two `(src, dst)` pairs, exactly the Python
`list.__lt__` used by `bisect.bisect_left` on `[src, dst]` lists. -/
def lexLt (a b : Int × Int) : Bool :=
  a.1 < b.1 || (a.1 == b.1 && a.2 < b.2)

/-- `bisect.bisect_left l key`: the insertion point for `key` in the
sorted list `l`, i.e. the index of the first element that is not
(lexicographically) below `key`.  All call sites in the source pass sorted
lists, on which this recursive characterisation agrees with the library's
binary search. -/
def bisect_left : List (Int × Int) → (Int × Int) → Nat
  | [], _ => 0
  | e :: rest, key => if lexLt e key then bisect_left rest key + 1 else 0

/-- Python `list.insert pos x` (insertion before index `pos`, clamped to
the end of the list). -/
def pyInsert : List (Int × Int) → Nat → (Int × Int) → List (Int × Int)
  | l, 0, x => x :: l
  | [], _ + 1, x => [x]
  | e :: rest, n + 1, x => e :: pyInsert rest n x

/-- The in-place loop `for i in range(start, len(m)): m[i][0] += d`:
add `d` to the `src` component of every entry at index `≥ start`. -/
def addSrcFrom : List (Int × Int) → Nat → Int → List (Int × Int)
  | [], _, _ => []
  | e :: rest, 0, d => (e.1 + d, e.2) :: addSrcFrom rest 0 d
  | e :: rest, n + 1, d => e :: addSrcFrom rest n d

/-- The state of `TextFragmentTracker`: the current buffer and the
offset map (`self._text`, `self._offsetmap`). -/
structure TextFragmentTracker where
  text : List Char
  offsetmap : List (Int × Int)
  deriving DecidableEq, Repr

namespace TextFragmentTracker

/-- `TextFragmentTracker.__init__`: fresh tracker over `s`, offset map
`[[0, 0]]`. -/
def init (s : List Char) : TextFragmentTracker :=
  ⟨s, [(0, 0)]⟩

/-- `translate_offset_index`: `bisect_left(offsetmap, [qry+1, 0]) - 1`,
clamped to `0` when the result would be `-1`. -/
def translate_offset_index (t : TextFragmentTracker) (qry : Int) : Nat :=
  let b := bisect_left t.offsetmap (qry + 1, 0)
  if b = 0 then 0 else b - 1

/-- `translate_full_offset`: the governing index together with
`qry + (dst - src)` of the breakpoint at that index. -/
def translate_full_offset (t : TextFragmentTracker) (qry : Int) : Nat × Int :=
  let index := t.translate_offset_index qry
  let span := t.offsetmap.getD index (0, 0)
  (index, qry + (span.2 - span.1))

/-- `translate_offset`: translate a current-buffer offset to its original
location offset. -/
def translate_offset (t : TextFragmentTracker) (qry : Int) : Int :=
  (t.translate_full_offset qry).2

/-- `delete_span`: remove the half-open span `[span_from, span_to)` from
the buffer and update the offset map.  Mirrors the Python statement by
statement: splice the text, look up both span ends, drop the breakpoints
strictly inside the span, merge or insert the new breakpoint
`[span_from, translated_to]`, then shift every later `src` down by the
deleted length. -/
def delete_span (t : TextFragmentTracker) (span : Nat × Nat) : TextFragmentTracker :=
  let span_from := span.1
  let span_to := span.2
  let length : Int := (span_to : Int) - (span_from : Int)
  let text' := t.text.take span_from ++ t.text.drop span_to
  let index_from := (t.translate_full_offset span_from).1
  let index_to := (t.translate_full_offset span_to).1
  let translated_to := (t.translate_full_offset span_to).2
  let m1 := t.offsetmap.take (index_from + 1) ++ t.offsetmap.drop (index_to + 1)
  let newElem : Int × Int := ((span_from : Int), translated_to)
  if (m1.getD index_from (0, 0)).1 = newElem.1 then
    ⟨text', addSrcFrom (m1.set index_from newElem) (index_from + 1) (-length)⟩
  else
    ⟨text', addSrcFrom (pyInsert m1 (index_from + 1) newElem) (index_from + 2) (-length)⟩

/-- `insert_at`: insert `s` into the buffer at `pos` (no-op when `s` is
empty); every breakpoint from the governing index of `pos + len(s)`
onward has its `src` increased by `len(s)`. -/
def insert_at (t : TextFragmentTracker) (pos : Nat) (s : List Char) : TextFragmentTracker :=
  let length := s.length
  if length = 0 then t
  else
    let text' := t.text.take pos ++ s ++ t.text.drop pos
    let index := (t.translate_full_offset ((pos : Int) + (length : Int))).1
    ⟨text', addSrcFrom t.offsetmap index (length : Int)⟩

/-- `replace_span`: delete the span, then insert the replacement at its
start. -/
def replace_span (t : TextFragmentTracker) (span : Nat × Nat) (repl : List Char) :
    TextFragmentTracker :=
  (t.delete_span span).insert_at span.1 repl

/-- Helper for the literal-pattern regex model: scan of `re.finditer` for
a plain (metacharacter-free) pattern, returning the non-overlapping match
spans left to right.  `fuel` bounds the scan; callers pass
`text.length + 1`, which is always enough since each step advances. -/
def findOccAux : Nat → List Char → List Char → Nat → List (Nat × Nat)
  | 0, _, _, _ => []
  | fuel + 1, pat, text, i =>
    if pat.isPrefixOf (text.drop i) then
      (i, i + pat.length) :: findOccAux fuel pat text (i + pat.length)
    else if i < text.length then
      findOccAux fuel pat text (i + 1)
    else
      []

/-- All non-overlapping occurrences of the literal pattern `pat` in
`text`, as `re.finditer` yields them for a pattern without
metacharacters.  Empty patterns never occur in the source's call sites
and are mapped to no matches. -/
def findOcc (pat text : List Char) : List (Nat × Nat) :=
  if pat.length = 0 then [] else findOccAux (text.length + 1) pat text 0

/-- `replace_regex` for a literal pattern and a fixed replacement string:
collect every match span in the buffer as it stands before any edit of
this call, then apply `replace_span` to the spans in reversed order. -/
def replace_regex_lit (t : TextFragmentTracker) (pat repl : List Char) :
    TextFragmentTracker :=
  (findOcc pat t.text).reverse.foldl (fun tr sp => tr.replace_span sp repl) t

/-- `delete_regex` for a literal pattern (default `delete_spans`, i.e.
whole-match deletion): collect every match span first, then apply
`delete_span` in reversed order. -/
def delete_regex_lit (t : TextFragmentTracker) (pat : List Char) :
    TextFragmentTracker :=
  (findOcc pat t.text).reverse.foldl (fun tr sp => tr.delete_span sp) t

/-- A sequence of `delete_span` edits applied left to right (the shape of
any deletion-only interaction with the tracker, e.g. what `delete_regex`
performs). -/
def applyDeletes (t : TextFragmentTracker) (ops : List (Nat × Nat)) :
    TextFragmentTracker :=
  ops.foldl (fun tr sp => tr.delete_span sp) t

/-- `__iter__`: the sequence `(translate_offset offset, char)` for every
character of the current buffer. -/
def iter (t : TextFragmentTracker) : List (Int × Char) :=
  (List.range t.text.length).map
    (fun (o : Nat) => (t.translate_offset (o : Int), t.text.getD o ' '))

/-- Invariant I1 (monotonicity): the `src` keys strictly increase along
the offset map. -/
abbrev I1 (m : List (Int × Int)) : Prop :=
  m.Pairwise (fun a b => a.1 < b.1)

/-- Invariant I2 (totality): every breakpoint's `dst` is a valid
(non-negative) original offset.  This is exactly the condition under
which the `bisect_left` search over `[src, dst]` pairs resolves every
non-negative current offset to the breakpoint with the greatest
`src ≤ offset`, as the data model prescribes (a negative `dst` at
`src = offset + 1` would make the lexicographic probe `[offset+1, 0]`
step past that breakpoint); it holds in every state reachable from
`init`. -/
abbrev I2 (m : List (Int × Int)) : Prop :=
  ∀ e ∈ m, 0 ≤ e.2

/-- Invariant I3 (origin anchor): the map is non-empty and breakpoint 0
is `(0, 0)`. -/
abbrev I3 (m : List (Int × Int)) : Prop :=
  m ≠ [] ∧ m.getD 0 (0, 0) = (0, 0)

end TextFragmentTracker

/- The state of `LineMapper`: the original text and the line-start
index `self._offsets` of `(offset, lineno)` pairs. -/
namespace LineMapper

/-- The construction loop of `LineMapper.__init__`: walk the text,
appending `(offset_of_newline, next_lineno)` for every `'\n'`. -/
def lineOffsetsAux : List Char → Int → Int → List (Int × Int)
  | [], _, _ => []
  | c :: rest, off, lineno =>
    if c = '\n' then (off, lineno + 1) :: lineOffsetsAux rest (off + 1) (lineno + 1)
    else lineOffsetsAux rest (off + 1) lineno

/-- `LineMapper.__init__`: the offsets list starts with `(0, 1)`. -/
def lineOffsets (s : List Char) : List (Int × Int) :=
  (0, 1) :: lineOffsetsAux s 0 1

/-- `LineMapper.resolve`: bisect for `(offset + 1, 0)`, step back one
(clamped to 0), and report `(lineno, colno)`; on line 1 the queried
offset is first adjusted by `+1`. -/
def resolve (s : List Char) (offset : Int) : Int × Int :=
  let offs := lineOffsets s
  let b := bisect_left offs (offset + 1, 0)
  let index := if b = 0 then 0 else b - 1
  let base := offs.getD index (0, 0)
  let off2 := if base.2 = 1 then offset + 1 else offset
  (base.2, off2 - base.1)

end LineMapper

open TextFragmentTracker

/- Sanity checks against the repository's own test suite
(`TextFragmentTrackerTests.py`, `LineMapper.__main__`). -/

example :
    iter ⟨"AaBbCcDdEe".toList, [(0, 0), (2, 10), (4, 20), (6, 30), (8, 40)]⟩ =
      [(0, 'A'), (1, 'a'), (10, 'B'), (11, 'b'), (20, 'C'), (21, 'c'),
       (30, 'D'), (31, 'd'), (40, 'E'), (41, 'e')] := by decide

example :
    iter ((init "Foobar".toList).delete_span (0, 3)) =
      [(3, 'b'), (4, 'a'), (5, 'r')] := by decide

example :
    ((init "FooBarKoo".toList) |>.offsetmap) = [(0, 0)] := by decide

example :
    (TextFragmentTracker.delete_span
        ⟨"FooBarKoo".toList, [(0, 0), (3, 100), (4, 200), (5, 300), (6, 1000)]⟩
        (1, 7)).offsetmap = [(0, 0), (1, 1001)] := by decide

example :
    iter ((init "foobarMUHKUH12345".toList).replace_regex_lit
        "MUHKUH".toList "qwe".toList) =
      [(0, 'f'), (1, 'o'), (2, 'o'), (3, 'b'), (4, 'a'), (5, 'r'),
       (6, 'q'), (7, 'w'), (8, 'e'),
       (12, '1'), (13, '2'), (14, '3'), (15, '4'), (16, '5')] := by decide

example : LineMapper.resolve "foobar\nbarfoo".toList 0 = (1, 1) := by decide
example : LineMapper.resolve "foobar\nbarfoo".toList 5 = (1, 6) := by decide
example : LineMapper.resolve "foobar\nbarfoo".toList 6 = (2, 0) := by decide
example : LineMapper.resolve "foobar\nbarfoo".toList 7 = (2, 1) := by decide
example : LineMapper.resolve "foobar\nbarfoo".toList 10 = (2, 4) := by decide

/-! ### Infrastructure: `bisect_left` and list-surgery lemmas -/

lemma bisect_left_le_length (l : List (Int × Int)) (k : Int × Int) :
    bisect_left l k ≤ l.length := by
  induction l with
  | nil => simp [bisect_left]
  | cons e rest ih =>
    simp only [bisect_left, List.length_cons]
    split
    · omega
    · omega

lemma bisect_left_append_all (A B : List (Int × Int)) (k : Int × Int)
    (h : ∀ e ∈ A, lexLt e k = true) :
    bisect_left (A ++ B) k = A.length + bisect_left B k := by
  induction A with
  | nil => simp
  | cons e rest ih =>
    have he : lexLt e k = true := h e (by simp)
    have ih' := ih (fun x hx => h x (by simp [hx]))
    simp only [List.cons_append, bisect_left, he, if_true, List.length_cons,
      List.append_eq] at ih' ⊢
    omega

lemma bisect_left_all_lt (l : List (Int × Int)) (k : Int × Int) (j : Nat)
    (hj : j < bisect_left l k) : lexLt (l.getD j (0, 0)) k = true := by
  induction l generalizing j with
  | nil => simp [bisect_left] at hj
  | cons e rest ih =>
    cases he : lexLt e k with
    | true =>
      cases j with
      | zero => simpa using he
      | succ j =>
        simp only [bisect_left, he, if_true] at hj
        simpa using ih j (by omega)
    | false =>
      have h0 : bisect_left (e :: rest) k = 0 := by simp [bisect_left, he]
      omega

lemma bisect_left_stop (l : List (Int × Int)) (k : Int × Int)
    (h : bisect_left l k < l.length) :
    lexLt (l.getD (bisect_left l k) (0, 0)) k = false := by
  induction l with
  | nil => simp [bisect_left] at h
  | cons e rest ih =>
    cases he : lexLt e k with
    | true =>
      simp only [bisect_left, he, if_true, List.length_cons] at h ⊢
      simpa using ih (by omega)
    | false =>
      simp [bisect_left, he]

lemma pyInsert_at_length (A B : List (Int × Int)) (x : Int × Int) :
    pyInsert (A ++ B) A.length x = A ++ x :: B := by
  induction A with
  | nil => cases B <;> rfl
  | cons e rest ih => simpa [pyInsert] using ih

lemma addSrcFrom_eq (m : List (Int × Int)) (n : Nat) (d : Int) :
    addSrcFrom m n d = m.take n ++ (m.drop n).map (fun e => (e.1 + d, e.2)) := by
  induction m generalizing n with
  | nil => simp [addSrcFrom]
  | cons e rest ih =>
    cases n with
    | zero => simp [addSrcFrom, ih 0]
    | succ n => simpa [addSrcFrom] using ih n

lemma take_append_length (A B : List (Int × Int)) (n : Nat) :
    (A ++ B).take (A.length + n) = A ++ B.take n := by
  induction A with
  | nil => simp
  | cons e rest ih =>
    simp only [List.cons_append, List.length_cons]
    rw [Nat.add_right_comm, List.take_succ_cons, ih]

lemma drop_append_length (A B : List (Int × Int)) (n : Nat) :
    (A ++ B).drop (A.length + n) = B.drop n := by
  induction A with
  | nil => simp
  | cons e rest ih =>
    simp only [List.cons_append, List.length_cons]
    rw [Nat.add_right_comm, List.drop_succ_cons, ih]

lemma set_at_length (A C : List (Int × Int)) (b x : Int × Int) :
    (A ++ b :: C).set A.length x = A ++ x :: C := by
  induction A with
  | nil => rfl
  | cons e rest ih => simp [ih]

lemma getD_take_lt (m : List (Int × Int)) (n i : Nat) (d : Int × Int) (h : i < n) :
    (m.take n).getD i d = m.getD i d := by
  rw [List.getD_eq_getD_get?, List.getD_eq_getD_get?, List.get?_take h]

lemma getD_drop_add (m : List (Int × Int)) (n i : Nat) (d : Int × Int) :
    (m.drop n).getD i d = m.getD (n + i) d := by
  rw [List.getD_eq_getD_get?, List.getD_eq_getD_get?, List.get?_drop]

lemma take_succ_getD (m : List (Int × Int)) (n : Nat) (h : n < m.length) :
    m.take (n + 1) = m.take n ++ [m.getD n (0, 0)] := by
  induction m generalizing n with
  | nil => simp at h
  | cons e rest ih =>
    cases n with
    | zero => simp
    | succ n =>
      simp only [List.length_cons] at h
      simp [List.take_succ_cons, ih n (by omega)]

lemma getD_map_shift (m : List (Int × Int)) (i : Nat) (d : Int) (h : i < m.length) :
    ((m.map (fun e => (e.1 + d, e.2))).getD i (0, 0)) =
      ((m.getD i (0, 0)).1 + d, (m.getD i (0, 0)).2) := by
  rw [List.getD_eq_getElem _ _ (by simpa using h), List.getD_eq_getElem _ _ h,
    List.getElem_map]

lemma getD_mem (m : List (Int × Int)) (i : Nat) (d : Int × Int) (h : i < m.length) :
    m.getD i d ∈ m := by
  rw [List.getD_eq_getElem _ _ h]
  exact List.getElem_mem ..

lemma mem_take_imp (m : List (Int × Int)) (n : Nat) (e : Int × Int)
    (he : e ∈ m.take n) :
    ∃ j, j < n ∧ j < m.length ∧ m.getD j (0, 0) = e := by
  induction m generalizing n with
  | nil => simp at he
  | cons a rest ih =>
    cases n with
    | zero => simp at he
    | succ n =>
      rw [List.take_succ_cons] at he
      rcases List.mem_cons.mp he with h | h
      · exact ⟨0, by omega, by simp, by simp [h]⟩
      · obtain ⟨j, hj1, hj2, hj3⟩ := ih n h
        exact ⟨j + 1, by omega, by simpa using hj2, by simpa using hj3⟩

/-! ### Infrastructure: the governing breakpoint of a query offset -/

lemma lexLt_key_iff (e : Int × Int) (q : Int) (hd : 0 ≤ e.2) :
    lexLt e (q + 1, 0) = true ↔ e.1 ≤ q := by
  obtain ⟨s, d⟩ := e
  simp only [lexLt, Bool.or_eq_true, Bool.and_eq_true, decide_eq_true_eq, beq_iff_eq]
  simp only at hd
  omega

lemma pairwise_getD_lt {m : List (Int × Int)} (h : TextFragmentTracker.I1 m)
    {i j : Nat} (hij : i < j) (hj : j < m.length) :
    (m.getD i (0, 0)).1 < (m.getD j (0, 0)).1 := by
  rw [List.getD_eq_getElem _ _ (by omega), List.getD_eq_getElem _ _ hj]
  exact List.pairwise_iff_getElem.mp h i j (by omega) hj hij

lemma pairwise_getD_le {m : List (Int × Int)} (h : TextFragmentTracker.I1 m)
    {i j : Nat} (hij : i ≤ j) (hj : j < m.length) :
    (m.getD i (0, 0)).1 ≤ (m.getD j (0, 0)).1 := by
  rcases Nat.lt_or_ge i j with hlt | hge
  · exact le_of_lt (pairwise_getD_lt h hlt hj)
  · have : i = j := by omega
    simp [this]

/-- Under I1 and I2, `translate_offset_index` is determined by the
sandwich property `src_i ≤ q < src_(i+1)`. -/
lemma translate_offset_index_eq (t : TextFragmentTracker)
    (h1 : TextFragmentTracker.I1 t.offsetmap) (h2 : TextFragmentTracker.I2 t.offsetmap)
    (q : Int) (i : Nat) (hi : i < t.offsetmap.length)
    (hle : (t.offsetmap.getD i (0, 0)).1 ≤ q)
    (hnext : i + 1 = t.offsetmap.length ∨ q < (t.offsetmap.getD (i + 1) (0, 0)).1) :
    t.translate_offset_index q = i := by
  have hbis : bisect_left t.offsetmap (q + 1, 0) = i + 1 := by
    conv_lhs => rw [← List.take_append_drop (i + 1) t.offsetmap]
    rw [bisect_left_append_all _ _ _ (by
      intro e he
      obtain ⟨j, hj1, hj2, hj3⟩ := mem_take_imp _ _ _ he
      rw [lexLt_key_iff e q (h2 e (hj3 ▸ getD_mem _ _ _ hj2))]
      calc e.1 = (t.offsetmap.getD j (0, 0)).1 := by rw [hj3]
        _ ≤ (t.offsetmap.getD i (0, 0)).1 := pairwise_getD_le h1 (by omega) hi
        _ ≤ q := hle)]
    rw [List.length_take, Nat.min_eq_left (by omega)]
    cases hd : t.offsetmap.drop (i + 1) with
    | nil => simp [bisect_left]
    | cons e rest =>
      have hlen : i + 1 < t.offsetmap.length := by
        by_contra hcon
        rw [List.drop_eq_nil_of_le (by omega)] at hd
        exact List.cons_ne_nil _ _ hd.symm
      have he1 : e = t.offsetmap.getD (i + 1) (0, 0) := by
        have hg := getD_drop_add t.offsetmap (i + 1) 0 (0, 0)
        rw [hd] at hg
        simpa using hg
      have hnext' : q < (t.offsetmap.getD (i + 1) (0, 0)).1 := by
        rcases hnext with h | h
        · omega
        · exact h
      have hfalse : lexLt e (q + 1, 0) = false := by
        rw [← Bool.not_eq_true, lexLt_key_iff e q
          (h2 e (he1 ▸ getD_mem _ _ _ hlen))]
        rw [he1]
        omega
      simp [bisect_left, hfalse]
  simp [TextFragmentTracker.translate_offset_index, hbis]

/-- Under I1, I2 and a zero-src head, the governing index of any
non-negative query satisfies the sandwich property. -/
lemma translate_offset_index_spec (t : TextFragmentTracker)
    (h1 : TextFragmentTracker.I1 t.offsetmap) (h2 : TextFragmentTracker.I2 t.offsetmap)
    (hne : t.offsetmap ≠ []) (h0 : (t.offsetmap.getD 0 (0, 0)).1 = 0)
    (q : Int) (hq : 0 ≤ q) :
    t.translate_offset_index q < t.offsetmap.length ∧
    (t.offsetmap.getD (t.translate_offset_index q) (0, 0)).1 ≤ q ∧
    (t.translate_offset_index q + 1 < t.offsetmap.length →
      q < (t.offsetmap.getD (t.translate_offset_index q + 1) (0, 0)).1) := by
  have hlen : 0 < t.offsetmap.length := List.length_pos.mpr hne
  have hb1 : 1 ≤ bisect_left t.offsetmap (q + 1, 0) := by
    cases hm : t.offsetmap with
    | nil => exact absurd hm hne
    | cons e rest =>
      have he : e = t.offsetmap.getD 0 (0, 0) := by simp [hm]
      have : lexLt e (q + 1, 0) = true := by
        rw [lexLt_key_iff e q (h2 e (by simp [hm]))]
        rw [he, h0]
        exact hq
      simp [hm, bisect_left, this]
  have hble := bisect_left_le_length t.offsetmap (q + 1, 0)
  have hidx : t.translate_offset_index q = bisect_left t.offsetmap (q + 1, 0) - 1 := by
    simp only [TextFragmentTracker.translate_offset_index]
    rw [if_neg (by omega)]
  refine ⟨by omega, ?_, ?_⟩
  · have hlt := bisect_left_all_lt t.offsetmap (q + 1, 0)
      (bisect_left t.offsetmap (q + 1, 0) - 1) (by omega)
    rw [lexLt_key_iff _ q (h2 _ (getD_mem _ _ _ (by omega)))] at hlt
    rw [hidx]
    exact hlt
  · intro hlt
    rw [hidx] at hlt ⊢
    have hstop := bisect_left_stop t.offsetmap (q + 1, 0) (by omega)
    have heq : bisect_left t.offsetmap (q + 1, 0) - 1 + 1 =
        bisect_left t.offsetmap (q + 1, 0) := by omega
    rw [heq]
    have := lexLt_key_iff (t.offsetmap.getD (bisect_left t.offsetmap (q + 1, 0)) (0, 0))
      q (h2 _ (getD_mem _ _ _ (by omega)))
    rw [hstop] at this
    have hn : ¬ (t.offsetmap.getD (bisect_left t.offsetmap (q + 1, 0)) (0, 0)).1 ≤ q := by
      intro hc
      exact absurd (this.mpr hc) (by simp)
    omega

/-- Unfolding lemma: the translated offset is the query plus the delta of
the governing breakpoint. -/
lemma translate_offset_def (t : TextFragmentTracker) (q : Int) :
    t.translate_offset q =
      q + ((t.offsetmap.getD (t.translate_offset_index q) (0, 0)).2 -
           (t.offsetmap.getD (t.translate_offset_index q) (0, 0)).1) := rfl

/-! ### Structure of `delete_span` -/

lemma delete_span_text (t : TextFragmentTracker) (sf st : Nat) :
    (t.delete_span (sf, st)).text = t.text.take sf ++ t.text.drop st := by
  simp only [TextFragmentTracker.delete_span]
  split <;> rfl

/-- Structure of the offset map after `delete_span`: a prefix of the old
map (up to and excluding the merge point), the new breakpoint
`(span_from, translated_to)`, then the old breakpoints after `index_to`
with their `src` shifted down by the deleted length. -/
lemma delete_span_offsetmap_shape (t : TextFragmentTracker) (sf st : Nat)
    (hif : (t.translate_full_offset (sf : Int)).1 < t.offsetmap.length) :
    ∃ K,
      (t.delete_span (sf, st)).offsetmap =
        t.offsetmap.take K ++ ((sf : Int), t.translate_offset (st : Int)) ::
          (t.offsetmap.drop ((t.translate_full_offset (st : Int)).1 + 1)).map
            (fun e => (e.1 + -((st : Int) - (sf : Int)), e.2)) ∧
      ((K = (t.translate_full_offset (sf : Int)).1 ∧
          (t.offsetmap.getD K (0, 0)).1 = (sf : Int)) ∨
       (K = (t.translate_full_offset (sf : Int)).1 + 1 ∧
          (t.offsetmap.getD (K - 1) (0, 0)).1 ≠ (sf : Int))) := by
  set m := t.offsetmap with hm
  set i_f := (t.translate_full_offset (sf : Int)).1 with hif_def
  set i_t := (t.translate_full_offset (st : Int)).1 with hit_def
  set T := t.translate_offset (st : Int) with hT_def
  set L : Int := (st : Int) - (sf : Int) with hL_def
  set m1 := m.take (i_f + 1) ++ m.drop (i_t + 1) with hm1
  have hlen_take : (m.take (i_f + 1)).length = i_f + 1 := by
    rw [List.length_take]
    omega
  have hlen_take' : (m.take i_f).length = i_f := by
    rw [List.length_take]
    omega
  have hm1get : m1.getD i_f (0, 0) = m.getD i_f (0, 0) := by
    rw [hm1, List.getD_append _ _ _ _ (by omega), getD_take_lt _ _ _ _ (by omega)]
  have hsucc : m.take (i_f + 1) = m.take i_f ++ [m.getD i_f (0, 0)] :=
    take_succ_getD m i_f hif
  by_cases hc : (m1.getD i_f (0, 0)).1 = (sf : Int)
  · refine ⟨i_f, ?_, Or.inl ⟨rfl, by rw [← hm1get]; exact hc⟩⟩
    have hdel : (t.delete_span (sf, st)).offsetmap =
        addSrcFrom (m1.set i_f ((sf : Int), T)) (i_f + 1) (-L) := by
      simp only [TextFragmentTracker.delete_span]
      rw [if_pos hc]
      rfl
    rw [hdel]
    have hset : m1.set i_f ((sf : Int), T) =
        m.take i_f ++ ((sf : Int), T) :: m.drop (i_t + 1) := by
      have hs := set_at_length (m.take i_f) (m.drop (i_t + 1)) (m.getD i_f (0, 0))
        ((sf : Int), T)
      rw [hlen_take'] at hs
      rw [hm1, hsucc, List.append_assoc, List.singleton_append, hs]
    rw [hset, addSrcFrom_eq]
    have h1 : (m.take i_f ++ ((sf : Int), T) :: m.drop (i_t + 1)).take (i_f + 1) =
        m.take i_f ++ [((sf : Int), T)] := by
      rw [show i_f + 1 = (m.take i_f).length + 1 by omega, take_append_length]
      simp
    have h2 : (m.take i_f ++ ((sf : Int), T) :: m.drop (i_t + 1)).drop (i_f + 1) =
        m.drop (i_t + 1) := by
      rw [show i_f + 1 = (m.take i_f).length + 1 by omega, drop_append_length]
      simp
    rw [h1, h2, List.append_assoc, List.singleton_append]
  · refine ⟨i_f + 1, ?_, Or.inr ⟨rfl, by
      simpa using (by rw [← hm1get]; exact hc : ¬ (m.getD i_f (0, 0)).1 = (sf : Int))⟩⟩
    have hdel : (t.delete_span (sf, st)).offsetmap =
        addSrcFrom (pyInsert m1 (i_f + 1) ((sf : Int), T)) (i_f + 2) (-L) := by
      simp only [TextFragmentTracker.delete_span]
      rw [if_neg hc]
      rfl
    rw [hdel]
    have hins : pyInsert m1 (i_f + 1) ((sf : Int), T) =
        m.take (i_f + 1) ++ ((sf : Int), T) :: m.drop (i_t + 1) := by
      have hs := pyInsert_at_length (m.take (i_f + 1)) (m.drop (i_t + 1)) ((sf : Int), T)
      rw [hlen_take] at hs
      rw [hm1, hs]
    rw [hins, addSrcFrom_eq]
    have h1 : (m.take (i_f + 1) ++ ((sf : Int), T) :: m.drop (i_t + 1)).take (i_f + 2) =
        m.take (i_f + 1) ++ [((sf : Int), T)] := by
      rw [show i_f + 2 = (m.take (i_f + 1)).length + 1 by omega, take_append_length]
      simp
    have h2 : (m.take (i_f + 1) ++ ((sf : Int), T) :: m.drop (i_t + 1)).drop (i_f + 2) =
        m.drop (i_t + 1) := by
      rw [show i_f + 2 = (m.take (i_f + 1)).length + 1 by omega, drop_append_length]
      simp
    rw [h1, h2, List.append_assoc, List.singleton_append]

/-- Well-formedness of an offset map: strictly increasing `src` keys
(I1), non-negative `dst` values (I2), and a non-empty map anchored at
`src = 0` (the `src` half of I3, which is what the mutating operations
actually maintain — see `_assert_offsetmap_integrity`). -/
abbrev WF (m : List (Int × Int)) : Prop :=
  TextFragmentTracker.I1 m ∧ TextFragmentTracker.I2 m ∧
    m ≠ [] ∧ (m.getD 0 (0, 0)).1 = 0

lemma mem_drop_imp (m : List (Int × Int)) (n : Nat) (e : Int × Int)
    (he : e ∈ m.drop n) :
    ∃ j, n ≤ j ∧ j < m.length ∧ m.getD j (0, 0) = e := by
  obtain ⟨k, hk, hek⟩ := List.mem_iff_getElem.mp he
  refine ⟨n + k, by omega, ?_, ?_⟩
  · rw [List.length_drop] at hk
    omega
  · rw [← getD_drop_add, List.getD_eq_getElem _ _ hk, hek]

lemma translate_full_offset_fst (t : TextFragmentTracker) (q : Int) :
    (t.translate_full_offset q).1 = t.translate_offset_index q := rfl

/-- The governing index is monotone along `≤` on in-bounds sandwich
facts: `index_from ≤ index_to` for a span `from ≤ to`. -/
lemma delete_span_gov (t : TextFragmentTracker)
    (h1 : TextFragmentTracker.I1 t.offsetmap) (h2 : TextFragmentTracker.I2 t.offsetmap)
    (hne : t.offsetmap ≠ []) (h0 : (t.offsetmap.getD 0 (0, 0)).1 = 0)
    (a b : Int) (ha : 0 ≤ a) (hab : a ≤ b) :
    t.translate_offset_index a ≤ t.translate_offset_index b := by
  obtain ⟨haL, haS, haN⟩ := translate_offset_index_spec t h1 h2 hne h0 a ha
  obtain ⟨hbL, hbS, hbN⟩ := translate_offset_index_spec t h1 h2 hne h0 b (by omega)
  by_contra hcon
  have hlt : t.translate_offset_index b + 1 ≤ t.translate_offset_index a := by omega
  have := haN  -- a's upper neighbour useless here; compare via pairwise
  have hle := pairwise_getD_le h1 hlt haL
  have := hbN (by omega)
  omega

/-- `delete_span` preserves well-formedness of the offset map. -/
lemma delete_span_WF (t : TextFragmentTracker) (sf st : Nat)
    (hwf : WF t.offsetmap) :
    WF (t.delete_span (sf, st)).offsetmap := by
  obtain ⟨h1, h2, hne, h0⟩ := hwf
  obtain ⟨hifL, hifS, hifN⟩ := translate_offset_index_spec t h1 h2 hne h0 (sf : Int)
    (by positivity)
  obtain ⟨hitL, hitS, hitN⟩ := translate_offset_index_spec t h1 h2 hne h0 (st : Int)
    (by positivity)
  obtain ⟨K, hshape, hK⟩ := delete_span_offsetmap_shape t sf st
    (by rw [translate_full_offset_fst]; exact hifL)
  rw [translate_full_offset_fst] at hshape hK
  set m := t.offsetmap with hm
  set i_f := t.translate_offset_index (sf : Int) with hif_def
  set i_t := t.translate_offset_index (st : Int) with hit_def
  set T := t.translate_offset (st : Int) with hT_def
  set L : Int := (st : Int) - (sf : Int) with hL_def
  have hKlen : K ≤ m.length := by rcases hK with ⟨h, _⟩ | ⟨h, _⟩ <;> omega
  have hKsf : ∀ j < K, (m.getD j (0, 0)).1 < (sf : Int) := by
    intro j hj
    rcases hK with ⟨hKi, hKeq⟩ | ⟨hKi, hKne⟩
    · calc (m.getD j (0, 0)).1 < (m.getD K (0, 0)).1 :=
          pairwise_getD_lt h1 hj (by omega)
        _ = (sf : Int) := hKeq
    · have hj' : j ≤ i_f := by omega
      have hK1 : K - 1 = i_f := by omega
      rcases Nat.lt_or_ge j i_f with hlt | hge
      · have := pairwise_getD_lt h1 hlt hifL
        omega
      · have hji : j = i_f := by omega
        have : (m.getD i_f (0, 0)).1 ≠ (sf : Int) := by rw [← hK1]; exact hKne
        rw [hji]
        omega
  have hdropgt : ∀ e ∈ (m.drop (i_t + 1)).map
      (fun e => (e.1 + -L, e.2)), (sf : Int) < e.1 := by
    intro b hb
    obtain ⟨e, he, heb⟩ := List.mem_map.mp hb
    obtain ⟨j, hj1, hj2, hj3⟩ := mem_drop_imp _ _ _ he
    have hgt : (st : Int) < e.1 := by
      have h1t : (st : Int) < (m.getD (i_t + 1) (0, 0)).1 := hitN (by omega)
      have h2t : (m.getD (i_t + 1) (0, 0)).1 ≤ (m.getD j (0, 0)).1 :=
        pairwise_getD_le h1 (by omega) hj2
      rw [hj3] at h2t
      omega
    rw [← heb]
    simp only
    omega
  refine ⟨?_, ?_, ?_, ?_⟩
  · -- I1
    rw [TextFragmentTracker.I1, hshape, List.pairwise_append]
    refine ⟨h1.sublist (List.take_sublist _ _), ?_, ?_⟩
    · rw [List.pairwise_cons]
      refine ⟨hdropgt, ?_⟩
      exact (h1.sublist (List.drop_sublist _ _)).map _ (by
        intro a b hab
        simp only at hab ⊢
        omega)
    · intro a ha b hb
      obtain ⟨j, hj1, hj2, hj3⟩ := mem_take_imp _ _ _ ha
      have haK : a.1 < (sf : Int) := by
        rw [← hj3]
        exact hKsf j hj1
      rcases List.mem_cons.mp hb with hb1 | hb2
      · rw [hb1]
        exact haK
      · have := hdropgt b hb2
        omega
  · -- I2
    rw [hshape]
    intro e he
    rcases List.mem_append.mp he with h | h
    · obtain ⟨j, hj1, hj2, hj3⟩ := mem_take_imp _ _ _ h
      exact h2 e (hj3 ▸ getD_mem _ _ _ hj2)
    · rcases List.mem_cons.mp h with h' | h'
      · rw [h']
        simp only
        rw [hT_def, translate_offset_def, ← hm, ← hit_def]
        have := h2 _ (getD_mem m i_t (0, 0) hitL)
        omega
      · obtain ⟨e', he', hee⟩ := List.mem_map.mp h'
        obtain ⟨j, hj1, hj2, hj3⟩ := mem_drop_imp _ _ _ he'
        have := h2 e' (hj3 ▸ getD_mem _ _ _ hj2)
        rw [← hee]
        simpa using this
  · -- non-empty
    rw [hshape]
    intro hcon
    rcases List.append_eq_nil.mp hcon with ⟨_, h⟩
    exact List.cons_ne_nil _ _ h
  · -- head src = 0
    rcases Nat.eq_zero_or_pos K with hKz | hKpos
    · have hsf0 : (sf : Int) = 0 := by
        rcases hK with ⟨hKi, hKeq⟩ | ⟨hKi, _⟩
        · rw [hKz] at hKeq
          omega
        · omega
      rw [hshape, hKz]
      simpa using hsf0
    · have hKlen' : (m.take K).length = K := by
        rw [List.length_take]
        omega
      rw [hshape, List.getD_append _ _ _ _ (by omega), getD_take_lt _ _ _ _ hKpos]
      exact h0

/-- The central pointwise description of `delete_span`'s effect on
translation: a current offset below `span_from` is translated exactly as
before the call, and a current offset at or above `span_from` is
translated exactly as the pre-call offset `o + (span_to - span_from)`
was. -/
lemma delete_span_translate (t : TextFragmentTracker) (sf st : Nat)
    (hwf : WF t.offsetmap) (q : Int) (hq : 0 ≤ q) :
    (t.delete_span (sf, st)).translate_offset q =
      if q < (sf : Int) then t.translate_offset q
      else t.translate_offset (q + ((st : Int) - (sf : Int))) := by
  obtain ⟨h1', h2', hne', h0'⟩ := delete_span_WF t sf st hwf
  obtain ⟨h1, h2, hne, h0⟩ := hwf
  obtain ⟨hifL, hifS, hifN⟩ := translate_offset_index_spec t h1 h2 hne h0 (sf : Int)
    (by positivity)
  obtain ⟨hitL, hitS, hitN⟩ := translate_offset_index_spec t h1 h2 hne h0 (st : Int)
    (by positivity)
  obtain ⟨K, hshape, hK⟩ := delete_span_offsetmap_shape t sf st
    (by rw [translate_full_offset_fst]; exact hifL)
  rw [translate_full_offset_fst] at hshape hK
  set t' := t.delete_span (sf, st) with ht'
  set i_f := t.translate_offset_index (sf : Int) with hif_def
  set i_t := t.translate_offset_index (st : Int) with hit_def
  set T := t.translate_offset (st : Int) with hT_def
  set L : Int := (st : Int) - (sf : Int) with hL_def
  have hKlen : K ≤ t.offsetmap.length := by rcases hK with ⟨h, _⟩ | ⟨h, _⟩ <;> omega
  have hKtake : (t.offsetmap.take K).length = K := by
    rw [List.length_take]
    omega
  have hlen' : t'.offsetmap.length = K + 1 + (t.offsetmap.length - (i_t + 1)) := by
    rw [hshape]
    simp only [List.length_append, List.length_cons, List.length_map,
      List.length_drop, hKtake]
    omega
  have hget_pre : ∀ j, j < K → t'.offsetmap.getD j (0, 0) = t.offsetmap.getD j (0, 0) := by
    intro j hj
    rw [hshape, List.getD_append _ _ _ _ (by omega), getD_take_lt _ _ _ _ hj]
  have hget_new : t'.offsetmap.getD K (0, 0) = ((sf : Int), T) := by
    rw [hshape, List.getD_append_right _ _ _ _ (by omega), hKtake, Nat.sub_self,
      List.getD_cons_zero]
  have hget_shift : ∀ j, i_t + 1 + j < t.offsetmap.length →
      t'.offsetmap.getD (K + 1 + j) (0, 0) =
        ((t.offsetmap.getD (i_t + 1 + j) (0, 0)).1 + -L, (t.offsetmap.getD (i_t + 1 + j) (0, 0)).2) := by
    intro j hj
    rw [hshape, List.getD_append_right _ _ _ _ (by omega), hKtake]
    have hsub : K + 1 + j - K = j + 1 := by omega
    rw [hsub, List.getD_cons_succ]
    rw [getD_map_shift _ _ _ (by rw [List.length_drop]; omega), getD_drop_add]
  by_cases hcase : q < (sf : Int)
  · rw [if_pos hcase]
    obtain ⟨hqL, hqS, hqN⟩ := translate_offset_index_spec t h1 h2 hne h0 q hq
    set i_q := t.translate_offset_index q with hiq
    have hiqK : i_q < K := by
      rcases hK with ⟨hKi, hKeq⟩ | ⟨hKi, hKne⟩
      · by_contra hcon
        have hle2 : (t.offsetmap.getD K (0, 0)).1 ≤ (t.offsetmap.getD i_q (0, 0)).1 :=
          pairwise_getD_le h1 (by omega) hqL
        omega
      · by_contra hcon
        have hiq1 : i_f + 1 ≤ i_q := by omega
        have h1lt : i_f + 1 < t.offsetmap.length := by omega
        have hup := hifN h1lt
        have hle2 : (t.offsetmap.getD (i_f + 1) (0, 0)).1 ≤ (t.offsetmap.getD i_q (0, 0)).1 :=
          pairwise_getD_le h1 hiq1 hqL
        omega
    have hidx' : t'.translate_offset_index q = i_q := by
      apply translate_offset_index_eq t' h1' h2' q i_q (by omega)
      · rw [hget_pre i_q hiqK]
        exact hqS
      · right
        rcases Nat.lt_or_ge (i_q + 1) K with hlt | hge
        · rw [hget_pre _ hlt]
          exact hqN (by omega)
        · have hiq1K : i_q + 1 = K := by omega
          rw [hiq1K, hget_new]
          exact hcase
    rw [translate_offset_def t' q, hidx', hget_pre i_q hiqK,
      translate_offset_def t q, ← hiq]
  · rw [if_neg hcase]
    have hsfq : (sf : Int) ≤ q := by omega
    have hp0 : 0 ≤ q + L := by omega
    obtain ⟨hpL, hpS, hpN⟩ := translate_offset_index_spec t h1 h2 hne h0 (q + L) hp0
    set j := t.translate_offset_index (q + L) with hj_def
    have hjit : i_t ≤ j := by
      by_contra hcon
      have hj1 : j + 1 ≤ i_t := by omega
      have hlt : j + 1 < t.offsetmap.length := by omega
      have hup := hpN hlt
      have hle2 : (t.offsetmap.getD (j + 1) (0, 0)).1 ≤ (t.offsetmap.getD i_t (0, 0)).1 :=
        pairwise_getD_le h1 hj1 hitL
      omega
    rcases Nat.eq_or_lt_of_le hjit with hjeq | hjlt
    · have hidx' : t'.translate_offset_index q = K := by
        apply translate_offset_index_eq t' h1' h2' q K (by omega)
        · rw [hget_new]
          exact hsfq
        · rcases Nat.lt_or_ge (K + 1) t'.offsetmap.length with hlt | hge
          · right
            have hit1 : i_t + 1 < t.offsetmap.length := by omega
            have hup := hpN (by omega : j + 1 < t.offsetmap.length)
            rw [← hjeq] at hup
            rw [show K + 1 = K + 1 + 0 by omega, hget_shift 0 (by omega)]
            simp only [Nat.add_zero]
            omega
          · left
            omega
      rw [translate_offset_def t' q, hidx', hget_new]
      rw [translate_offset_def t (q + L), ← hj_def, ← hjeq]
      rw [hT_def, translate_offset_def t (st : Int), ← hit_def]
      simp only
      omega
    · set r := K + 1 + (j - (i_t + 1)) with hr_def
      have hjlen : j < t.offsetmap.length := hpL
      have hidx' : t'.translate_offset_index q = r := by
        apply translate_offset_index_eq t' h1' h2' q r (by omega)
        · rw [hr_def, hget_shift (j - (i_t + 1)) (by omega)]
          have hx : i_t + 1 + (j - (i_t + 1)) = j := by omega
          rw [hx]
          simp only
          omega
        · rcases Nat.lt_or_ge (j + 1) t.offsetmap.length with hlt | hge
          · right
            have hx1 : r + 1 = K + 1 + (j + 1 - (i_t + 1)) := by omega
            rw [hx1, hget_shift (j + 1 - (i_t + 1)) (by omega)]
            have hx2 : i_t + 1 + (j + 1 - (i_t + 1)) = j + 1 := by omega
            rw [hx2]
            simp only
            have hup := hpN (by omega)
            omega
          · left
            rw [hlen']
            omega
      rw [translate_offset_def t' q, hidx', hr_def,
        hget_shift (j - (i_t + 1)) (by omega)]
      have hx : i_t + 1 + (j - (i_t + 1)) = j := by omega
      rw [hx]
      rw [translate_offset_def t (q + L), ← hj_def]
      simp only
      omega

/-! ### Structure of `insert_at` -/

lemma insert_at_nil (t : TextFragmentTracker) (pos : Nat) :
    t.insert_at pos [] = t := rfl

lemma insert_at_text (t : TextFragmentTracker) (pos : Nat) (s : List Char)
    (hs : s ≠ []) :
    (t.insert_at pos s).text = t.text.take pos ++ s ++ t.text.drop pos := by
  rw [TextFragmentTracker.insert_at]
  rw [if_neg (by simpa using hs)]

lemma insert_at_offsetmap (t : TextFragmentTracker) (pos : Nat) (s : List Char)
    (hs : s ≠ []) :
    (t.insert_at pos s).offsetmap =
      addSrcFrom t.offsetmap
        (t.translate_offset_index ((pos : Int) + (s.length : Int)))
        (s.length : Int) := by
  rw [TextFragmentTracker.insert_at]
  rw [if_neg (by simpa using hs)]
  rfl

lemma addSrcFrom_length (m : List (Int × Int)) (n : Nat) (d : Int) :
    (addSrcFrom m n d).length = m.length := by
  rw [addSrcFrom_eq]
  simp only [List.length_append, List.length_take, List.length_map, List.length_drop]
  omega

lemma addSrcFrom_getD_lt (m : List (Int × Int)) (n : Nat) (d : Int) (j : Nat)
    (hjn : j < n) (hjl : j < m.length) :
    (addSrcFrom m n d).getD j (0, 0) = m.getD j (0, 0) := by
  rw [addSrcFrom_eq,
    List.getD_append _ _ _ _ (by rw [List.length_take]; omega),
    getD_take_lt _ _ _ _ hjn]

lemma addSrcFrom_getD_ge (m : List (Int × Int)) (n : Nat) (d : Int) (j : Nat)
    (hjn : n ≤ j) (hjl : j < m.length) :
    (addSrcFrom m n d).getD j (0, 0) =
      ((m.getD j (0, 0)).1 + d, (m.getD j (0, 0)).2) := by
  have hn : n ≤ m.length := by omega
  have htk : (m.take n).length = n := by rw [List.length_take]; omega
  rw [addSrcFrom_eq, List.getD_append_right _ _ _ _ (by omega), htk,
    getD_map_shift _ _ _ (by rw [List.length_drop]; omega), getD_drop_add]
  have hx : n + (j - n) = j := by omega
  rw [hx]

lemma addSrcFrom_I1 (m : List (Int × Int)) (n : Nat) (d : Int) (hd : 0 ≤ d)
    (h1 : TextFragmentTracker.I1 m) :
    TextFragmentTracker.I1 (addSrcFrom m n d) := by
  rw [addSrcFrom_eq, TextFragmentTracker.I1, List.pairwise_append]
  refine ⟨h1.sublist (List.take_sublist _ _), ?_, ?_⟩
  · exact (h1.sublist (List.drop_sublist _ _)).map _ (by
      intro a b hab
      simp only at hab ⊢
      omega)
  · intro a ha b hb
    obtain ⟨j, hj1, hj2, hj3⟩ := mem_take_imp _ _ _ ha
    obtain ⟨e, he, heb⟩ := List.mem_map.mp hb
    obtain ⟨i, hi1, hi2, hi3⟩ := mem_drop_imp _ _ _ he
    have : (m.getD j (0, 0)).1 < (m.getD i (0, 0)).1 :=
      pairwise_getD_lt h1 (by omega) hi2
    rw [← heb, ← hj3, ← hi3]
    simp only
    omega

lemma addSrcFrom_I2 (m : List (Int × Int)) (n : Nat) (d : Int)
    (h2 : TextFragmentTracker.I2 m) :
    TextFragmentTracker.I2 (addSrcFrom m n d) := by
  rw [addSrcFrom_eq]
  intro e he
  rcases List.mem_append.mp he with h | h
  · obtain ⟨j, hj1, hj2, hj3⟩ := mem_take_imp _ _ _ h
    exact h2 e (hj3 ▸ getD_mem _ _ _ hj2)
  · obtain ⟨e', he', hee⟩ := List.mem_map.mp h
    obtain ⟨j, hj1, hj2, hj3⟩ := mem_drop_imp _ _ _ he'
    have := h2 e' (hj3 ▸ getD_mem _ _ _ hj2)
    rw [← hee]
    simpa using this

/-- The central pointwise description of `insert_at`'s effect on
translation, in terms of the governing index `idx` of `pos + len(s)` and
its breakpoint's src `S`: offsets below `S` keep their translation,
offsets in `[S, S + len)` get the delta of the run before `idx` (of the
shifted breakpoint 0 when `idx = 0`), and offsets at or above `S + len`
are translated as their pre-insert counterparts `o - len`. -/
lemma insert_at_translate (t : TextFragmentTracker) (pos : Nat) (s : List Char)
    (hwf : WF t.offsetmap) (hs : s ≠ []) (idx : Nat) (S : Int)
    (hidx : idx = t.translate_offset_index ((pos : Int) + (s.length : Int)))
    (hS : S = (t.offsetmap.getD idx (0, 0)).1)
    (o : Int) (ho : 0 ≤ o) :
    (t.insert_at pos s).translate_offset o =
      if o < S then t.translate_offset o
      else if o < S + (s.length : Int) then
        o + (((t.insert_at pos s).offsetmap.getD (idx - 1) (0, 0)).2 -
             ((t.insert_at pos s).offsetmap.getD (idx - 1) (0, 0)).1)
      else t.translate_offset (o - (s.length : Int)) := by
  obtain ⟨h1, h2, hne, h0⟩ := hwf
  have hlen0 : 0 < s.length := List.length_pos.mpr hs
  obtain ⟨hidxL, hidxS, hidxN⟩ := translate_offset_index_spec t h1 h2 hne h0
    ((pos : Int) + (s.length : Int)) (by positivity)
  rw [← hidx] at hidxL hidxS hidxN
  have hmap := insert_at_offsetmap t pos s hs
  rw [← hidx] at hmap
  set t' := t.insert_at pos s with ht'
  have h1' : TextFragmentTracker.I1 t'.offsetmap := by
    rw [hmap]
    exact addSrcFrom_I1 _ _ _ (by positivity) h1
  have h2' : TextFragmentTracker.I2 t'.offsetmap := by
    rw [hmap]
    exact addSrcFrom_I2 _ _ _ h2
  have hlen' : t'.offsetmap.length = t.offsetmap.length := by
    rw [hmap, addSrcFrom_length]
  have hS0 : 0 ≤ S := by
    have := pairwise_getD_le h1 (Nat.zero_le idx) hidxL
    omega
  by_cases hc1 : o < S
  · rw [if_pos hc1]
    obtain ⟨hoL, hoS, hoN⟩ := translate_offset_index_spec t h1 h2 hne h0 o ho
    have hoK : t.translate_offset_index o < idx := by
      by_contra hcon
      have := pairwise_getD_le h1 (by omega : idx ≤ t.translate_offset_index o) hoL
      omega
    have hidx' : t'.translate_offset_index o = t.translate_offset_index o := by
      apply translate_offset_index_eq t' h1' h2' o _ (by omega)
      · rw [hmap, addSrcFrom_getD_lt _ _ _ _ hoK (by omega)]
        exact hoS
      · right
        rcases Nat.lt_or_ge (t.translate_offset_index o + 1) idx with hlt | hge
        · rw [hmap, addSrcFrom_getD_lt _ _ _ _ hlt (by omega)]
          exact hoN (by omega)
        · have hoi : t.translate_offset_index o + 1 = idx := by omega
          rw [hoi, hmap, addSrcFrom_getD_ge _ _ _ _ (by omega) hidxL]
          simp only
          omega
    rw [translate_offset_def t' o, hidx',
      hmap, addSrcFrom_getD_lt _ _ _ _ hoK (by omega), translate_offset_def t o]
  · rw [if_neg hc1]
    by_cases hc2 : o < S + (s.length : Int)
    · rw [if_pos hc2]
      rcases Nat.eq_zero_or_pos idx with hz | hpos
      · -- governing breakpoint 0 was shifted past `o`; the clamp applies
        have hS00 : S = 0 := by
          rw [hS, hz] at *
          omega
        have hb0 : bisect_left t'.offsetmap (o + 1, 0) = 0 := by
          cases hm' : t'.offsetmap with
          | nil =>
            rw [bisect_left]
          | cons e rest =>
            have he : e = t'.offsetmap.getD 0 (0, 0) := by rw [hm']; rfl
            have hg : t'.offsetmap.getD 0 (0, 0) =
                ((t.offsetmap.getD 0 (0, 0)).1 + (s.length : Int),
                 (t.offsetmap.getD 0 (0, 0)).2) := by
              rw [hmap, hz, addSrcFrom_getD_ge _ _ _ _ (by omega) (by omega)]
            have hfalse : lexLt e (o + 1, 0) = false := by
              rw [← Bool.not_eq_true,
                lexLt_key_iff e o (h2' e (by rw [hm']; exact List.mem_cons_self ..))]
              rw [he, hg]
              simp only
              rw [hS, hz] at hc2
              omega
            rw [bisect_left, hfalse]
            simp
        have hidx' : t'.translate_offset_index o = 0 := by
          rw [TextFragmentTracker.translate_offset_index, hb0]
          rfl
        rw [translate_offset_def t' o, hidx', hz]
      · -- the run before `idx` is extended over the inserted text
        have hprev : (t.offsetmap.getD (idx - 1) (0, 0)).1 < S := by
          rw [hS]
          exact pairwise_getD_lt h1 (by omega) hidxL
        have hidx' : t'.translate_offset_index o = idx - 1 := by
          apply translate_offset_index_eq t' h1' h2' o _ (by omega)
          · rw [hmap, addSrcFrom_getD_lt _ _ _ _ (by omega) (by omega)]
            omega
          · right
            have hx : idx - 1 + 1 = idx := by omega
            rw [hx, hmap, addSrcFrom_getD_ge _ _ _ _ (by omega) hidxL]
            simp only
            omega
        rw [translate_offset_def t' o, hidx',
          hmap, addSrcFrom_getD_lt _ _ _ _ (by omega) (by omega)]
    · rw [if_neg hc2]
      have hp0 : 0 ≤ o - (s.length : Int) := by omega
      obtain ⟨hpL, hpS, hpN⟩ := translate_offset_index_spec t h1 h2 hne h0
        (o - (s.length : Int)) hp0
      set j := t.translate_offset_index (o - (s.length : Int)) with hj_def
      have hjidx : idx ≤ j := by
        by_contra hcon
        have hj1 : j + 1 ≤ idx := by omega
        have hup := hpN (by omega)
        have hle2 : (t.offsetmap.getD (j + 1) (0, 0)).1 ≤
            (t.offsetmap.getD idx (0, 0)).1 := pairwise_getD_le h1 hj1 hidxL
        omega
      have hidx' : t'.translate_offset_index o = j := by
        apply translate_offset_index_eq t' h1' h2' o j (by omega)
        · rw [hmap, addSrcFrom_getD_ge _ _ _ _ hjidx hpL]
          simp only
          omega
        · rcases Nat.lt_or_ge (j + 1) t.offsetmap.length with hlt | hge
          · right
            have hup := hpN hlt
            rw [hmap, addSrcFrom_getD_ge _ _ _ _ (by omega) hlt]
            simp only
            omega
          · left
            omega
      rw [translate_offset_def t' o, hidx',
        hmap, addSrcFrom_getD_ge _ _ _ _ hjidx hpL,
        translate_offset_def t (o - (s.length : Int)), ← hj_def]
      simp only
      omega

/-! ### The fresh tracker and deletion sequences -/

lemma init_WF (s : List Char) : WF (TextFragmentTracker.init s).offsetmap := by
  refine ⟨?_, ?_, ?_, ?_⟩ <;> simp [TextFragmentTracker.init]

lemma init_translate (s : List Char) (o : Int) :
    (TextFragmentTracker.init s).translate_offset o = o := by
  cases h : lexLt (0, 0) (o + 1, 0) <;>
    simp [TextFragmentTracker.init, TextFragmentTracker.translate_offset,
      TextFragmentTracker.translate_full_offset,
      TextFragmentTracker.translate_offset_index, bisect_left, h]

/-- Deleting a span with `from ≤ to` preserves monotonicity of
translation over non-negative offsets. -/
lemma delete_span_mono (t : TextFragmentTracker) (sf st : Nat)
    (hwf : WF t.offsetmap) (hfs : sf ≤ st)
    (hmono : ∀ a b : Int, 0 ≤ a → a ≤ b →
      t.translate_offset a ≤ t.translate_offset b)
    (a b : Int) (ha : 0 ≤ a) (hab : a ≤ b) :
    (t.delete_span (sf, st)).translate_offset a ≤
      (t.delete_span (sf, st)).translate_offset b := by
  rw [delete_span_translate t sf st hwf a ha,
    delete_span_translate t sf st hwf b (by omega)]
  by_cases h1 : a < (sf : Int) <;> by_cases h2 : b < (sf : Int)
  · rw [if_pos h1, if_pos h2]
    exact hmono a b ha hab
  · rw [if_pos h1, if_neg h2]
    exact hmono a (b + ((st : Int) - (sf : Int))) ha (by omega)
  · omega
  · rw [if_neg h1, if_neg h2]
    exact hmono (a + ((st : Int) - (sf : Int))) (b + ((st : Int) - (sf : Int)))
      (by omega) (by omega)

/-- Any sequence of deletions with `from ≤ to` preserves well-formedness
and monotonicity of translation. -/
lemma applyDeletes_WF_mono (ops : List (Nat × Nat)) :
    ∀ t : TextFragmentTracker, WF t.offsetmap →
    (∀ sp ∈ ops, sp.1 ≤ sp.2) →
    (∀ a b : Int, 0 ≤ a → a ≤ b →
      t.translate_offset a ≤ t.translate_offset b) →
    WF (TextFragmentTracker.applyDeletes t ops).offsetmap ∧
    (∀ a b : Int, 0 ≤ a → a ≤ b →
      (TextFragmentTracker.applyDeletes t ops).translate_offset a ≤
        (TextFragmentTracker.applyDeletes t ops).translate_offset b) := by
  induction ops with
  | nil =>
    intro t hwf _ hmono
    exact ⟨hwf, hmono⟩
  | cons sp rest ih =>
    obtain ⟨sf, st⟩ := sp
    intro t hwf hops hmono
    have hsp : sf ≤ st := hops (sf, st) (List.mem_cons_self ..)
    have hstep : TextFragmentTracker.applyDeletes t ((sf, st) :: rest) =
        TextFragmentTracker.applyDeletes (t.delete_span (sf, st)) rest := rfl
    rw [hstep]
    exact ih (t.delete_span (sf, st)) (delete_span_WF t sf st hwf)
      (fun x hx => hops x (List.mem_cons_of_mem _ hx))
      (delete_span_mono t sf st hwf hsp hmono)

/-! ### LineMapper -/

lemma lineOffsetsAux_snd_ge (s : List Char) (off l : Int) :
    ∀ e ∈ LineMapper.lineOffsetsAux s off l, l + 1 ≤ e.2 := by
  induction s generalizing off l with
  | nil => simp [LineMapper.lineOffsetsAux]
  | cons c rest ih =>
    intro e he
    rw [LineMapper.lineOffsetsAux] at he
    by_cases hc : c = '\n'
    · rw [if_pos hc] at he
      rcases List.mem_cons.mp he with h | h
      · rw [h]
      · have := ih (off + 1) (l + 1) e h
        omega
    · rw [if_neg hc] at he
      exact ih (off + 1) l e he

lemma lineOffsetsAux_fst_ge (s : List Char) (off l : Int) :
    ∀ e ∈ LineMapper.lineOffsetsAux s off l, off ≤ e.1 := by
  induction s generalizing off l with
  | nil => simp [LineMapper.lineOffsetsAux]
  | cons c rest ih =>
    intro e he
    rw [LineMapper.lineOffsetsAux] at he
    by_cases hc : c = '\n'
    · rw [if_pos hc] at he
      rcases List.mem_cons.mp he with h | h
      · rw [h]
      · have := ih (off + 1) (l + 1) e h
        omega
    · rw [if_neg hc] at he
      have := ih (off + 1) l e he
      omega

/-- Splitting the construction scan at the first newline of `s`. -/
lemma lineOffsetsAux_first_newline (s : List Char) (k : Nat) :
    ∀ (off l : Int), k < s.length → s.getD k ' ' = '\n' →
    (∀ j, j < k → s.getD j ' ' ≠ '\n') →
    LineMapper.lineOffsetsAux s off l =
      (off + (k : Int), l + 1) ::
        LineMapper.lineOffsetsAux (s.drop (k + 1)) (off + (k : Int) + 1) (l + 1) := by
  induction s generalizing k with
  | nil =>
    intro off l hk
    simp at hk
  | cons c rest ih =>
    intro off l hk hnl hbefore
    cases k with
    | zero =>
      have hc : c = '\n' := by simpa using hnl
      rw [LineMapper.lineOffsetsAux, if_pos hc]
      simp
    | succ j =>
      have hc : c ≠ '\n' := by
        have := hbefore 0 (by omega)
        simpa using this
      rw [LineMapper.lineOffsetsAux, if_neg hc]
      rw [ih j (off + 1) l (by simpa using hk) (by simpa using hnl)
        (fun i hi => by simpa using hbefore (i + 1) (by omega))]
      rw [List.drop_succ_cons]
      have hx : off + 1 + (j : Int) = off + ((j : Nat) + 1 : Nat) := by
        push_cast
        ring
      rw [hx]

/-- Unfolding `resolve` once the lookup index is known. -/
lemma resolve_index_eq (s : List Char) (offset : Int) (i : Nat)
    (hi : (if bisect_left (LineMapper.lineOffsets s) (offset + 1, 0) = 0 then 0
           else bisect_left (LineMapper.lineOffsets s) (offset + 1, 0) - 1) = i) :
    LineMapper.resolve s offset =
      (((LineMapper.lineOffsets s).getD i (0, 0)).2,
       (if ((LineMapper.lineOffsets s).getD i (0, 0)).2 = 1 then offset + 1
        else offset) - ((LineMapper.lineOffsets s).getD i (0, 0)).1) := by
  subst hi
  rfl

/-- When the text does not begin with a newline, offset 0 resolves to
line 1, column 1. -/
lemma resolve_zero (s : List Char) (h : s.getD 0 ' ' ≠ '\n') :
    LineMapper.resolve s 0 = (1, 1) := by
  have hb : bisect_left (LineMapper.lineOffsets s) (0 + 1, 0) = 1 := by
    cases s with
    | nil => decide
    | cons c rest =>
      have hc : c ≠ '\n' := by simpa using h
      rw [LineMapper.lineOffsets, LineMapper.lineOffsetsAux, if_neg hc]
      have h1 : lexLt (0, 1) (1, 0) = true := by decide
      have hbaux : bisect_left (LineMapper.lineOffsetsAux rest 1 1) (1, 0) = 0 := by
        cases haux : LineMapper.lineOffsetsAux rest 1 1 with
        | nil => rfl
        | cons e tail =>
          have he1 := lineOffsetsAux_fst_ge rest 1 1 e
            (by rw [haux]; exact List.mem_cons_self ..)
          have he2 := lineOffsetsAux_snd_ge rest 1 1 e
            (by rw [haux]; exact List.mem_cons_self ..)
          have hf : lexLt e (1, 0) = false := by
            rw [← Bool.not_eq_true]
            simp only [lexLt, Bool.or_eq_true, Bool.and_eq_true,
              decide_eq_true_eq, beq_iff_eq]
            omega
          simp [bisect_left, hf]
      simp [bisect_left, h1, hbaux]
  rw [resolve_index_eq s 0 0 (by rw [hb]; decide)]
  rw [LineMapper.lineOffsets, List.getD_cons_zero]
  norm_num

/-- The offset of the first newline of the text resolves to line 2,
column 0. -/
lemma resolve_first_newline (s : List Char) (k : Nat) (hk : k < s.length)
    (hnl : s.getD k ' ' = '\n') (hbefore : ∀ j, j < k → s.getD j ' ' ≠ '\n') :
    LineMapper.resolve s (k : Int) = (2, 0) := by
  have hoffs : LineMapper.lineOffsets s =
      (0, 1) :: (((k : Int), 2) ::
        LineMapper.lineOffsetsAux (s.drop (k + 1)) ((k : Int) + 1) 2) := by
    rw [LineMapper.lineOffsets, lineOffsetsAux_first_newline s k 0 1 hk hnl hbefore]
    norm_num
  have h1 : lexLt (0, 1) ((k : Int) + 1, 0) = true := by
    simp only [lexLt, Bool.or_eq_true, Bool.and_eq_true, decide_eq_true_eq,
      beq_iff_eq]
    omega
  have h2 : lexLt ((k : Int), 2) ((k : Int) + 1, 0) = true := by
    simp only [lexLt, Bool.or_eq_true, Bool.and_eq_true, decide_eq_true_eq,
      beq_iff_eq]
    omega
  have hbaux : bisect_left
      (LineMapper.lineOffsetsAux (s.drop (k + 1)) ((k : Int) + 1) 2)
      ((k : Int) + 1, 0) = 0 := by
    cases haux : LineMapper.lineOffsetsAux (s.drop (k + 1)) ((k : Int) + 1) 2 with
    | nil => rfl
    | cons e tail =>
      have he1 := lineOffsetsAux_fst_ge (s.drop (k + 1)) ((k : Int) + 1) 2 e
        (by rw [haux]; exact List.mem_cons_self ..)
      have he2 := lineOffsetsAux_snd_ge (s.drop (k + 1)) ((k : Int) + 1) 2 e
        (by rw [haux]; exact List.mem_cons_self ..)
      have hf : lexLt e ((k : Int) + 1, 0) = false := by
        rw [← Bool.not_eq_true]
        simp only [lexLt, Bool.or_eq_true, Bool.and_eq_true, decide_eq_true_eq,
          beq_iff_eq]
        omega
      simp [bisect_left, hf]
  have hb : bisect_left (LineMapper.lineOffsets s) ((k : Int) + 1, 0) = 2 := by
    rw [hoffs]
    simp [bisect_left, h1, h2, hbaux]
  rw [resolve_index_eq s (k : Int) 1 (by rw [hb]; decide)]
  rw [hoffs, List.getD_cons_succ, List.getD_cons_zero]
  norm_num

/-- The line-1 quirk: whenever `resolve` reports line 1, the column is
the queried offset plus one. -/
lemma resolve_line1_col (s : List Char) (o : Int)
    (h : (LineMapper.resolve s o).1 = 1) :
    (LineMapper.resolve s o).2 = o + 1 := by
  rw [resolve_index_eq s o _ rfl] at h ⊢
  simp only at h
  set I := (if bisect_left (LineMapper.lineOffsets s) (o + 1, 0) = 0 then 0
            else bisect_left (LineMapper.lineOffsets s) (o + 1, 0) - 1) with hI
  have hI0 : I = 0 := by
    by_contra hne
    have hpos : 1 ≤ I := by omega
    have hx : I = (I - 1) + 1 := by omega
    rw [LineMapper.lineOffsets] at h
    rw [hx, List.getD_cons_succ] at h
    have hble := bisect_left_le_length (LineMapper.lineOffsets s) (o + 1, 0)
    have hlen : I < (LineMapper.lineOffsets s).length := by
      rw [hI]
      split
      · rw [LineMapper.lineOffsets]
        simp
      · rw [LineMapper.lineOffsets] at hble ⊢
        simp only [List.length_cons] at hble ⊢
        omega
    have hil2 : I - 1 < (LineMapper.lineOffsetsAux s 0 1).length := by
      rw [LineMapper.lineOffsets] at hlen
      simp only [List.length_cons] at hlen
      omega
    have := lineOffsetsAux_snd_ge s 0 1 _ (getD_mem _ (I - 1) (0, 0) hil2)
    omega
  rw [hI0] at h ⊢
  rw [LineMapper.lineOffsets, List.getD_cons_zero] at h ⊢
  simp only at h ⊢
  norm_num

lemma take_clamp (l : List Char) (n : Nat) : l.take n = l.take (min n l.length) := by
  rcases Nat.le_total n l.length with h | h
  · rw [Nat.min_eq_left h]
  · rw [Nat.min_eq_right h, List.take_length, List.take_of_length_le h]

lemma drop_clamp (l : List Char) (n : Nat) : l.drop n = l.drop (min n l.length) := by
  rcases Nat.le_total n l.length with h | h
  · rw [Nat.min_eq_left h]
  · rw [Nat.min_eq_right h, List.drop_length, List.drop_eq_nil_of_le h]

/-! ### Claims -/

/-- C1: for every tracker whose offset map satisfies invariants I1-I3 and
every span `(from, to)` with `0 ≤ from ≤ to ≤ len(text)`, `delete_span`
sets the buffer to `old_text[:from] + old_text[to:]`, leaves
`translate_offset o` unchanged for every current offset `o < from`, makes
`translate_offset from` equal to the pre-call `translate_offset to`, and
for every current offset `o ≥ from` makes `translate_offset o` equal to
the pre-call `translate_offset (o + (to - from))`. -/
theorem claim_C1_delete_span (t : TextFragmentTracker) (sf st : Nat)
    (h1 : TextFragmentTracker.I1 t.offsetmap)
    (h2 : TextFragmentTracker.I2 t.offsetmap)
    (h3 : TextFragmentTracker.I3 t.offsetmap)
    (hfs : sf ≤ st) (hst : st ≤ t.text.length) :
    (t.delete_span (sf, st)).text = t.text.take sf ++ t.text.drop st ∧
    (∀ o : Int, 0 ≤ o → o < (sf : Int) →
      (t.delete_span (sf, st)).translate_offset o = t.translate_offset o) ∧
    (t.delete_span (sf, st)).translate_offset (sf : Int) =
      t.translate_offset (st : Int) ∧
    (∀ o : Int, (sf : Int) ≤ o →
      (t.delete_span (sf, st)).translate_offset o =
        t.translate_offset (o + ((st : Int) - (sf : Int)))) := by
  have hwf : WF t.offsetmap := ⟨h1, h2, h3.1, by rw [h3.2]⟩
  refine ⟨delete_span_text t sf st, ?_, ?_, ?_⟩
  · intro o ho hlt
    rw [delete_span_translate t sf st hwf o ho, if_pos hlt]
  · have h := delete_span_translate t sf st hwf (sf : Int) (by positivity)
    rw [if_neg (by omega)] at h
    rw [h]
    congr 1
    ring
  · intro o ho
    rw [delete_span_translate t sf st hwf o (by omega), if_neg (by omega)]

theorem claim_C1_witness :
    TextFragmentTracker.I1 (TextFragmentTracker.init "Foobar".toList).offsetmap ∧
    (1 : Nat) ≤ 3 ∧ (3 : Nat) ≤ "Foobar".toList.length ∧
    ((TextFragmentTracker.init "Foobar".toList).delete_span (1, 3)).translate_offset
        ((1 : Nat) : Int) =
      (TextFragmentTracker.init "Foobar".toList).translate_offset ((3 : Nat) : Int) :=
  ⟨by decide, by decide, by decide,
    (claim_C1_delete_span (TextFragmentTracker.init "Foobar".toList) 1 3
      (by decide) (by decide) (by decide) (by decide) (by decide)).2.2.1⟩

/-- C2 counterexample: on a fresh tracker over "abcd", `insert_at(1, "xy")`
shifts breakpoint 0 itself (the governing breakpoint of `pos + len`), so
`translate_offset 0` changes from 0 to -2 even though 0 < pos; under the
claim's update rule (only breakpoints with src at or after the translated
position of `pos + len(t)`, i.e. at or after 3, are shifted) the map
`[(0, 0)]` would be unchanged and `translate_offset 0` would stay 0. -/
theorem claim_C2_counterexample :
    (TextFragmentTracker.init "abcd".toList).translate_offset 0 = 0 ∧
    ((TextFragmentTracker.init "abcd".toList).insert_at 1
        "xy".toList).offsetmap = [(2, 0)] ∧
    ((TextFragmentTracker.init "abcd".toList).insert_at 1
        "xy".toList).translate_offset 0 = -2 :=
  ⟨by decide, by decide, by decide⟩

/-- C2 amended: `insert_at(pos, t)` (t non-empty) splices `t` into the
buffer at `pos` and adds `len(t)` to the src of exactly the breakpoints
from the governing index `idx` of `pos + len(t)` onward (the greatest
index whose src does not exceed `pos + len(t)`); writing `S` for that
breakpoint's src, `translate_offset` is unchanged only below `S`, applies
the delta of the run before `idx` on `[S, S + len)` (the prevailing run's
delta extended across the insertion; the shifted breakpoint 0 when
`idx = 0`), and equals the pre-call translation of `o - len(t)` from
`S + len` on. -/
theorem claim_C2_insert_at (t : TextFragmentTracker) (pos : Nat) (s : List Char)
    (h1 : TextFragmentTracker.I1 t.offsetmap)
    (h2 : TextFragmentTracker.I2 t.offsetmap)
    (h3 : TextFragmentTracker.I3 t.offsetmap)
    (hs : s ≠ []) (hpos : pos ≤ t.text.length) (idx : Nat)
    (hidx : idx = t.translate_offset_index ((pos : Int) + (s.length : Int))) :
    (t.insert_at pos s).text = t.text.take pos ++ s ++ t.text.drop pos ∧
    ((t.offsetmap.getD idx (0, 0)).1 ≤ (pos : Int) + (s.length : Int) ∧
      (idx + 1 < t.offsetmap.length →
        (pos : Int) + (s.length : Int) < (t.offsetmap.getD (idx + 1) (0, 0)).1)) ∧
    (∀ j, j < idx →
      (t.insert_at pos s).offsetmap.getD j (0, 0) = t.offsetmap.getD j (0, 0)) ∧
    (∀ j, idx ≤ j → j < t.offsetmap.length →
      (t.insert_at pos s).offsetmap.getD j (0, 0) =
        ((t.offsetmap.getD j (0, 0)).1 + (s.length : Int),
         (t.offsetmap.getD j (0, 0)).2)) ∧
    (∀ o : Int, 0 ≤ o → o < (t.offsetmap.getD idx (0, 0)).1 →
      (t.insert_at pos s).translate_offset o = t.translate_offset o) ∧
    (∀ o : Int, (t.offsetmap.getD idx (0, 0)).1 ≤ o →
      o < (t.offsetmap.getD idx (0, 0)).1 + (s.length : Int) →
      (t.insert_at pos s).translate_offset o =
        o + (((t.insert_at pos s).offsetmap.getD (idx - 1) (0, 0)).2 -
             ((t.insert_at pos s).offsetmap.getD (idx - 1) (0, 0)).1)) ∧
    (∀ o : Int, (t.offsetmap.getD idx (0, 0)).1 + (s.length : Int) ≤ o →
      (t.insert_at pos s).translate_offset o =
        t.translate_offset (o - (s.length : Int))) := by
  have hwf : WF t.offsetmap := ⟨h1, h2, h3.1, by rw [h3.2]⟩
  obtain ⟨hidxL, hidxS, hidxN⟩ := translate_offset_index_spec t h1 h2 h3.1
    (by rw [h3.2]) ((pos : Int) + (s.length : Int)) (by positivity)
  rw [← hidx] at hidxL hidxS hidxN
  have hS0 : 0 ≤ (t.offsetmap.getD idx (0, 0)).1 := by
    have hp := pairwise_getD_le h1 (Nat.zero_le idx) hidxL
    rw [h3.2] at hp
    simpa using hp
  refine ⟨insert_at_text t pos s hs, ⟨hidxS, hidxN⟩, ?_, ?_, ?_, ?_, ?_⟩
  · intro j hj
    rw [insert_at_offsetmap t pos s hs, ← hidx,
      addSrcFrom_getD_lt _ _ _ _ hj (by omega)]
  · intro j hij hjl
    rw [insert_at_offsetmap t pos s hs, ← hidx,
      addSrcFrom_getD_ge _ _ _ _ hij hjl]
  · intro o ho hlt
    rw [insert_at_translate t pos s hwf hs idx _ hidx rfl o ho, if_pos hlt]
  · intro o h1o h2o
    rw [insert_at_translate t pos s hwf hs idx _ hidx rfl o (by omega),
      if_neg (by omega), if_pos (by omega)]
  · intro o hge
    have hl0 : 0 < s.length := List.length_pos.mpr hs
    rw [insert_at_translate t pos s hwf hs idx _ hidx rfl o (by omega),
      if_neg (by omega), if_neg (by omega)]

theorem claim_C2_witness :
    ((TextFragmentTracker.mk "foobar12345".toList
        [(0, 0), (6, 12)]).insert_at 6 "qwe".toList).translate_offset 12 =
      (TextFragmentTracker.mk "foobar12345".toList
        [(0, 0), (6, 12)]).translate_offset (12 - ("qwe".toList.length : Int)) := by
  have h := claim_C2_insert_at
    (TextFragmentTracker.mk "foobar12345".toList [(0, 0), (6, 12)]) 6 "qwe".toList
    (by decide) (by decide) (by decide) (by decide) (by decide) 1 (by decide)
  exact h.2.2.2.2.2.2 12 (by decide)

/-- C3 counterexample: the first breakpoint is not preserved as `(0, 0)`:
deleting at offset 0 changes its dst (`delete_span((0, 3))` on a fresh
"Foobar" tracker leaves breakpoint 0 as `(0, 3)`), and a fresh-tracker
insertion even moves its src (`insert_at(1, "xy")` on "abcd" leaves
breakpoint 0 as `(2, 0)`). -/
theorem claim_C3_counterexample :
    ((TextFragmentTracker.init "Foobar".toList).delete_span (0, 3)).offsetmap =
      [(0, 3)] ∧
    ((TextFragmentTracker.init "abcd".toList).insert_at 1 "xy".toList).offsetmap =
      [(2, 0)] :=
  ⟨by decide, by decide⟩

/-- C3 amended: `delete_span` (and hence each deletion of `delete_regex`)
always keeps the offset map non-empty with the src of breakpoint 0 equal
to 0 — the `src` half of the origin anchor, which is exactly what
`_assert_offsetmap_integrity` checks; its dst can change (deleting at
offset 0), and `insert_at` can move even the src of breakpoint 0 (see the
counterexample). -/
theorem claim_C3_origin_anchor (t : TextFragmentTracker) (sp : Nat × Nat)
    (h1 : TextFragmentTracker.I1 t.offsetmap)
    (h2 : TextFragmentTracker.I2 t.offsetmap)
    (h3 : TextFragmentTracker.I3 t.offsetmap) :
    (t.delete_span sp).offsetmap ≠ [] ∧
    ((t.delete_span sp).offsetmap.getD 0 (0, 0)).1 = 0 := by
  obtain ⟨sf, st⟩ := sp
  have h := delete_span_WF t sf st ⟨h1, h2, h3.1, by rw [h3.2]⟩
  exact ⟨h.2.2.1, h.2.2.2⟩

theorem claim_C3_witness :
    ((TextFragmentTracker.init "Foobar".toList).delete_span (0, 3)).offsetmap ≠ [] ∧
    (((TextFragmentTracker.init "Foobar".toList).delete_span
        (0, 3)).offsetmap.getD 0 (0, 0)).1 = 0 :=
  claim_C3_origin_anchor (TextFragmentTracker.init "Foobar".toList) (0, 3)
    (by decide) (by decide) (by decide)

/-- C4 counterexample: an out-of-range call does not fail fast:
`delete_span((0, 100))` on the three-character buffer "abc" completes
normally, silently clamping the buffer splice (the buffer becomes empty)
while recording the raw span end in the offset map, and
`insert_at(7, "x")` on the same buffer silently appends at the end. -/
theorem claim_C4_counterexample :
    ((TextFragmentTracker.init "abc".toList).delete_span (0, 100)).text = [] ∧
    ((TextFragmentTracker.init "abc".toList).delete_span (0, 100)).offsetmap =
      [(0, 100)] ∧
    ((TextFragmentTracker.init "abc".toList).insert_at 7 "x".toList).text =
      "abcx".toList :=
  ⟨by decide, by decide, by decide⟩

/-- C4 amended: out-of-range arguments are not validated and never raise:
both operations are total, and the buffer splice of an out-of-range call
is identical to that of the call with the indices clamped to the buffer
length (Python slice semantics), while the offset map is updated from the
raw arguments. -/
theorem claim_C4_no_validation (t : TextFragmentTracker) (sf st pos : Nat)
    (s : List Char) :
    (t.delete_span (sf, st)).text =
      (t.delete_span (min sf t.text.length, min st t.text.length)).text ∧
    (t.insert_at pos s).text = (t.insert_at (min pos t.text.length) s).text := by
  constructor
  · rw [delete_span_text, delete_span_text, ← take_clamp, ← drop_clamp]
  · by_cases hs : s = []
    · rw [hs, insert_at_nil, insert_at_nil]
    · rw [insert_at_text t pos s hs, insert_at_text t _ s hs,
        ← take_clamp, ← drop_clamp]

/-- C5 counterexample: three in-range edits on a fresh tracker over
"0123456789ABCDEF" — delete (4,6), insert "wxyz" at 5, insert "abc" at
10 — leave the untouched original characters '7' (current offset 9,
original offset 7) and '8' (current offset 13, original offset 8) with
decreasing translations: `translate_offset 9 = 9 > 8 = translate_offset
13` although 9 < 13. -/
theorem claim_C5_counterexample :
    ((((TextFragmentTracker.init "0123456789ABCDEF".toList).delete_span
        (4, 6)).insert_at 5 "wxyz".toList).insert_at 10 "abc".toList).text =
      "01236wxyz7abc89ABCDEF".toList ∧
    ((((TextFragmentTracker.init "0123456789ABCDEF".toList).delete_span
        (4, 6)).insert_at 5 "wxyz".toList).insert_at 10
        "abc".toList).translate_offset 9 = 9 ∧
    ((((TextFragmentTracker.init "0123456789ABCDEF".toList).delete_span
        (4, 6)).insert_at 5 "wxyz".toList).insert_at 10
        "abc".toList).translate_offset 13 = 8 :=
  ⟨by decide, by decide, by decide⟩

/-- C5 amended: after any sequence of `delete_span` operations with
`from ≤ to` (in particular any in-range sequence) starting from a fresh
tracker, `translate_offset` is monotone on all non-negative current
offsets — so in particular on untouched original regions; with
`insert_at` in the mix the property fails (see the counterexample). -/
theorem claim_C5_delete_monotone (s : List Char) (ops : List (Nat × Nat))
    (hops : ∀ sp ∈ ops, sp.1 ≤ sp.2) (a b : Int) (ha : 0 ≤ a) (hab : a ≤ b) :
    (TextFragmentTracker.applyDeletes
        (TextFragmentTracker.init s) ops).translate_offset a ≤
      (TextFragmentTracker.applyDeletes
        (TextFragmentTracker.init s) ops).translate_offset b := by
  have h := applyDeletes_WF_mono ops (TextFragmentTracker.init s) (init_WF s) hops
    (fun x y _ hxy => by rw [init_translate, init_translate]; exact hxy)
  exact h.2 a b ha hab

theorem claim_C5_witness :
    (TextFragmentTracker.applyDeletes (TextFragmentTracker.init "Foobar".toList)
        [(0, 3), (1, 2)]).translate_offset 0 ≤
      (TextFragmentTracker.applyDeletes (TextFragmentTracker.init "Foobar".toList)
        [(0, 3), (1, 2)]).translate_offset 2 :=
  claim_C5_delete_monotone "Foobar".toList [(0, 3), (1, 2)] (by decide) 0 2
    (by decide) (by decide)

/-- C6: `replace_regex` first locates all non-overlapping matches in the
pre-edit buffer (a single scan: the sole match of "MUHKUH" in
"foobarMUHKUH12345" is the span (6, 12)), then applies the span edits in
reverse order of starting offset (here the single `replace_span`), and
the resulting iteration is exactly the stated sequence. -/
theorem claim_C6_replace_regex :
    findOcc "MUHKUH".toList "foobarMUHKUH12345".toList = [(6, 12)] ∧
    (TextFragmentTracker.init "foobarMUHKUH12345".toList).replace_regex_lit
        "MUHKUH".toList "qwe".toList =
      (TextFragmentTracker.init "foobarMUHKUH12345".toList).replace_span (6, 12)
        "qwe".toList ∧
    iter ((TextFragmentTracker.init "foobarMUHKUH12345".toList).replace_regex_lit
        "MUHKUH".toList "qwe".toList) =
      [(0, 'f'), (1, 'o'), (2, 'o'), (3, 'b'), (4, 'a'), (5, 'r'),
       (6, 'q'), (7, 'w'), (8, 'e'),
       (12, '1'), (13, '2'), (14, '3'), (15, '4'), (16, '5')] :=
  ⟨by decide, by decide, by decide⟩

/-- C7: for a freshly constructed tracker with no edits applied,
`translate_offset o = o` — for every integer offset, in particular every
valid one. -/
theorem claim_C7_identity (s : List Char) (o : Int) :
    (TextFragmentTracker.init s).translate_offset o = o :=
  init_translate s o

/-- C8 counterexample: two parts of the claim fail on the code: offset 0
of a text that begins with a newline resolves to (2, 0), not (1, 1); and
the first character after the first newline of "foobar\nbarfoo" (offset
7) resolves to (2, 1), not (2, 0) — it is the newline's own offset (6)
that resolves to (2, 0). -/
theorem claim_C8_counterexample :
    LineMapper.resolve "\na".toList 0 = (2, 0) ∧
    LineMapper.resolve "foobar\nbarfoo".toList 7 = (2, 1) :=
  ⟨by decide, by decide⟩

/-- C8 amended: `resolve 0 = (1, 1)` for every text that does not begin
with a newline; the offset of the first newline itself resolves to
(2, 0); whenever the resolved line is line 1 the reported column is the
queried offset plus one (the +1 quirk); and for "foobar\nbarfoo" the five
concrete values hold as stated. -/
theorem claim_C8_line_mapper :
    (∀ s : List Char, s.getD 0 ' ' ≠ '\n' → LineMapper.resolve s 0 = (1, 1)) ∧
    (∀ (s : List Char) (k : Nat), k < s.length → s.getD k ' ' = '\n' →
      (∀ j, j < k → s.getD j ' ' ≠ '\n') →
      LineMapper.resolve s (k : Int) = (2, 0)) ∧
    (∀ (s : List Char) (o : Int), (LineMapper.resolve s o).1 = 1 →
      (LineMapper.resolve s o).2 = o + 1) ∧
    LineMapper.resolve "foobar\nbarfoo".toList 0 = (1, 1) ∧
    LineMapper.resolve "foobar\nbarfoo".toList 5 = (1, 6) ∧
    LineMapper.resolve "foobar\nbarfoo".toList 6 = (2, 0) ∧
    LineMapper.resolve "foobar\nbarfoo".toList 7 = (2, 1) ∧
    LineMapper.resolve "foobar\nbarfoo".toList 10 = (2, 4) :=
  ⟨resolve_zero, resolve_first_newline, resolve_line1_col,
    by decide, by decide, by decide, by decide, by decide⟩

theorem claim_C8_witness :
    LineMapper.resolve "xy\nz".toList 0 = (1, 1) ∧
    LineMapper.resolve "xy\nz".toList ((2 : Nat) : Int) = (2, 0) :=
  ⟨claim_C8_line_mapper.1 "xy\nz".toList (by decide),
   claim_C8_line_mapper.2.1 "xy\nz".toList 2 (by decide) (by decide)
     (by decide)⟩

/-- C9: empty edits are no-ops, not errors: for every tracker satisfying
I1-I3 and in-range position `p`, `insert_at(p, "")` returns the tracker
unchanged and `delete_span((p, p))` leaves the buffer text and every
non-negative translation unchanged. -/
theorem claim_C9_empty_edits (t : TextFragmentTracker) (p : Nat)
    (h1 : TextFragmentTracker.I1 t.offsetmap)
    (h2 : TextFragmentTracker.I2 t.offsetmap)
    (h3 : TextFragmentTracker.I3 t.offsetmap)
    (hp : p ≤ t.text.length) :
    t.insert_at p [] = t ∧
    (t.delete_span (p, p)).text = t.text ∧
    (∀ o : Int, 0 ≤ o →
      (t.delete_span (p, p)).translate_offset o = t.translate_offset o) := by
  have hwf : WF t.offsetmap := ⟨h1, h2, h3.1, by rw [h3.2]⟩
  refine ⟨insert_at_nil t p, ?_, ?_⟩
  · rw [delete_span_text, List.take_append_drop]
  · intro o ho
    rw [delete_span_translate t p p hwf o ho]
    split
    · rfl
    · congr 1
      omega

theorem claim_C9_witness :
    (TextFragmentTracker.init "abc".toList).insert_at 2 [] =
      TextFragmentTracker.init "abc".toList ∧
    ((TextFragmentTracker.init "abc".toList).delete_span (2, 2)).text =
      "abc".toList ∧
    ((TextFragmentTracker.init "abc".toList).delete_span (2, 2)).translate_offset 1 =
      (TextFragmentTracker.init "abc".toList).translate_offset 1 := by
  have h := claim_C9_empty_edits (TextFragmentTracker.init "abc".toList) 2
    (by decide) (by decide) (by decide) (by decide)
  exact ⟨h.1, h.2.1, h.2.2 1 (by decide)⟩

/-- C10: `translate_offset` is total on any tracker with a non-empty
offset map: the lookup index is always in bounds (so the Python indexing
`offsetmap[index]` cannot fail), and for any integer query below the
first breakpoint's src — negative offsets included — the index is clamped
to breakpoint 0 and the first run's delta is applied. -/
theorem claim_C10_translate_total (t : TextFragmentTracker)
    (h1 : TextFragmentTracker.I1 t.offsetmap)
    (h2 : TextFragmentTracker.I2 t.offsetmap)
    (hne : t.offsetmap ≠ []) :
    (∀ q : Int, t.translate_offset_index q < t.offsetmap.length) ∧
    (∀ q : Int, q < (t.offsetmap.getD 0 (0, 0)).1 →
      t.translate_offset_index q = 0 ∧
      t.translate_offset q =
        q + ((t.offsetmap.getD 0 (0, 0)).2 - (t.offsetmap.getD 0 (0, 0)).1)) := by
  have hlen : 0 < t.offsetmap.length := List.length_pos.mpr hne
  constructor
  · intro q
    have hble := bisect_left_le_length t.offsetmap (q + 1, 0)
    simp only [TextFragmentTracker.translate_offset_index]
    split
    · omega
    · omega
  · intro q hq
    have hb0 : bisect_left t.offsetmap (q + 1, 0) = 0 := by
      cases hm : t.offsetmap with
      | nil => exact absurd hm hne
      | cons e rest =>
        have he : e = t.offsetmap.getD 0 (0, 0) := by rw [hm]; rfl
        have hf : lexLt e (q + 1, 0) = false := by
          rw [← Bool.not_eq_true, lexLt_key_iff e q
            (h2 e (by rw [hm]; exact List.mem_cons_self ..))]
          rw [he]
          omega
        simp [bisect_left, hf]
    have hidx : t.translate_offset_index q = 0 := by
      simp [TextFragmentTracker.translate_offset_index, hb0]
    exact ⟨hidx, by rw [translate_offset_def, hidx]⟩

theorem claim_C10_witness :
    (-3 : Int) < ((TextFragmentTracker.mk "ab".toList
        [(0, 0), (2, 5)]).offsetmap.getD 0 (0, 0)).1 + 1 ∧
    (TextFragmentTracker.mk "ab".toList
        [(0, 0), (2, 5)]).translate_offset_index 100 <
      (TextFragmentTracker.mk "ab".toList [(0, 0), (2, 5)]).offsetmap.length ∧
    (TextFragmentTracker.mk "ab".toList
        [(0, 0), (2, 5)]).translate_offset_index (-3) = 0 := by
  have h := claim_C10_translate_total
    (TextFragmentTracker.mk "ab".toList [(0, 0), (2, 5)])
    (by decide) (by decide) (by decide)
  exact ⟨by decide, h.1 100, (h.2 (-3) (by decide)).1⟩

end Biblint
